import Mathlib

/-!
Shallow embedding of `src/blockchain.py`.

Modelling decisions:
* Python `float` amounts are modelled by `Amount`: a finite rational or one
  of the non-finite values NaN / Infinity / -Infinity (the code never
  branches on an amount, so no float arithmetic is needed).
* `time.time()` is modelled by passing the current timestamp explicitly to
  each operation that reads the clock.
* `hashlib.sha256(...).hexdigest()` is an external library primitive; it is
  modelled as a function parameter `sha256 : String → String` applied to the
  exact serialization the code hashes.  `json.dumps(block_content,
  sort_keys=True)` is modelled concretely (key-sorted object dumps with the
  default ", " / ": " separators), since the spec's claims speak about the
  key-sorting.
* `Block.mine_block`'s unbounded `while` loop is modelled with explicit
  fuel: `none` means the loop did not finish within the given fuel, `some`
  is the mined block.  The loop checks its condition before every step, so
  with fuel 0 a block whose stored hash already meets the target is
  returned unchanged, exactly as in the Python loop.
-/

namespace Blockchain

/-- A Python float as far as this program observes it: a finite rational
number, or one of the non-finite values NaN, Infinity, -Infinity. -/
inductive Amount where
  | num (q : ℚ)
  | nan
  | inf
  | neginf
deriving DecidableEq

/-- Whether the amount is a finite number (Python `math.isfinite`). -/
def Amount.isFinite : Amount → Bool
  | .num _ => true
  | _ => false

/-- Rendering of an amount inside the JSON dump.  The exact digits are
immaterial to every claim (the digest function is abstract); what matters is
that it is a function of the amount alone. -/
def Amount.render : Amount → String
  | .num q => toString q
  | .nan => "NaN"
  | .inf => "Infinity"
  | .neginf => "-Infinity"

/-- `class Transaction` (src/blockchain.py lines 6-21). -/
structure Transaction where
  sender : String
  recipient : String
  amount : Amount
  timestamp : Nat
deriving DecidableEq

/-- `Transaction.__init__`: stores the three arguments and stamps the
current time.  It performs no validation whatsoever. -/
def Transaction.init (sender recipient : String) (amount : Amount)
    (now : Nat) : Transaction :=
  ⟨sender, recipient, amount, now⟩

/-- The constructor contract as the spec words it, kept for comparison
with the code's `Transaction.init`: fail with an `InvalidAmount` condition
when the amount is not finite, succeed otherwise.  (The code has no such
check.) -/
def Transaction.initSpec (sender recipient : String) (amount : Amount)
    (now : Nat) : Except String Transaction :=
  if amount.isFinite then .ok ⟨sender, recipient, amount, now⟩
  else .error "InvalidAmount"

/-- A JSON string literal (the transactions of the demo contain no
characters needing escapes, and no claim depends on escaping). -/
def jstr (s : String) : String := "\x22" ++ s ++ "\x22"

/-- `Transaction.to_dict`: the dict, as an association list in the
insertion order the code writes it. -/
def Transaction.to_dict (t : Transaction) : List (String × String) :=
  [("sender", jstr t.sender), ("recipient", jstr t.recipient),
   ("amount", t.amount.render), ("timestamp", toString t.timestamp)]

/-- `json.dumps(..., sort_keys=True)` sorts the object's keys; modelled
with insertion sort by key. -/
def sortByKey (l : List (String × String)) : List (String × String) :=
  l.insertionSort (fun p q => p.1 ≤ q.1)

/-- A JSON object dump with sorted keys and the default separators of
`json.dumps`. -/
def dumpsObj (l : List (String × String)) : String :=
  "\x7b" ++ String.intercalate ", "
    ((sortByKey l).map (fun p => jstr p.1 ++ ": " ++ p.2)) ++ "\x7d"

/-- A JSON array dump with the default separator of `json.dumps`. -/
def dumpsArr (elems : List String) : String :=
  "[" ++ String.intercalate ", " elems ++ "]"

/-- `class Block` (src/blockchain.py lines 23-57). -/
structure Block where
  index : Nat
  timestamp : Nat
  transactions : List Transaction
  previous_hash : String
  nonce : Nat
  hash : String
deriving DecidableEq

/-- The `block_content` dict built by `Block.calculate_hash`, as an
association list in the code's insertion order.  Note it reads every field
of the block except the stored `hash` itself. -/
def blockContent (b : Block) : List (String × String) :=
  [("index", toString b.index),
   ("timestamp", toString b.timestamp),
   ("transactions", dumpsArr (b.transactions.map (fun t => dumpsObj t.to_dict))),
   ("previous_hash", jstr b.previous_hash),
   ("nonce", toString b.nonce)]

/-- `Block.calculate_hash`: SHA-256 hex digest of the key-sorted JSON dump
of the block content.  The digest primitive is the parameter `sha256`. -/
def calculate_hash (sha256 : String → String) (b : Block) : String :=
  sha256 (dumpsObj (blockContent b))

/-- `Block.__init__`: stores index, transactions and previous hash, stamps
the time, sets nonce to 0 and immediately computes the hash. -/
def Block.init (sha256 : String → String) (index : Nat)
    (transactions : List Transaction) (previous_hash : String)
    (now : Nat) : Block :=
  let b : Block := ⟨index, now, transactions, previous_hash, 0, ""⟩
  { b with hash := calculate_hash sha256 b }

/-- `'0' * difficulty`: the proof-of-work target string. -/
def zeroTarget (difficulty : Nat) : String :=
  String.mk (List.replicate difficulty '0')

/-- `Block.mine_block`: while the stored hash's first `difficulty`
characters are not all zeros, increment the nonce and recompute the hash.
`fuel` bounds the number of loop iterations; `none` means the fuel ran out
with the target still unmet. -/
def mine_block (sha256 : String → String) (difficulty : Nat) :
    Nat → Block → Option Block
  | 0, b => if b.hash.take difficulty = zeroTarget difficulty then some b else none
  | fuel + 1, b =>
    if b.hash.take difficulty = zeroTarget difficulty then some b
    else mine_block sha256 difficulty fuel
      { b with nonce := b.nonce + 1,
               hash := calculate_hash sha256 { b with nonce := b.nonce + 1 } }

/-- `class IndianBlockchain` (src/blockchain.py lines 59-130). -/
structure IndianBlockchain where
  chain : List Block
  difficulty : Nat
  pending_transactions : List Transaction
deriving DecidableEq

/-- The default value of the `difficulty` parameter of
`IndianBlockchain.__init__`. -/
def defaultDifficulty : Nat := 4

/-- `IndianBlockchain.__init__` together with `create_genesis_block`:
start from an empty chain and pool, build `Block(0, [], "0" * 64)`, mine it
at the configured difficulty and append it. -/
def IndianBlockchain.init (sha256 : String → String)
    (difficulty fuel now : Nat) : Option IndianBlockchain :=
  (mine_block sha256 difficulty fuel
      (Block.init sha256 0 [] (zeroTarget 64) now)).map
    (fun g => ⟨[g], difficulty, []⟩)

/-- `IndianBlockchain.__init__` with the difficulty argument omitted. -/
def IndianBlockchain.initDefault (sha256 : String → String)
    (fuel now : Nat) : Option IndianBlockchain :=
  IndianBlockchain.init sha256 defaultDifficulty fuel now

/-- `IndianBlockchain.get_latest_block`: `self.chain[-1]` (Python raises on
an empty list, modelled by `none`). -/
def get_latest_block (bc : IndianBlockchain) : Option Block :=
  bc.chain.getLast?

/-- `IndianBlockchain.add_transaction`: construct the transaction and
append it to the pending pool.  Total: no validation happens. -/
def add_transaction (bc : IndianBlockchain) (sender recipient : String)
    (amount : Amount) (now : Nat) : IndianBlockchain :=
  { bc with pending_transactions :=
      bc.pending_transactions ++ [Transaction.init sender recipient amount now] }

/-- `IndianBlockchain.mine_pending_transactions`: add the reward
transaction (`"Network"` → miner, amount `10.0`), build a block at index
`len(self.chain)` holding the whole pool and linked to the tip's hash, mine
it, append it, clear the pool.  `none` when the chain has no tip (Python
would raise) or the mining fuel runs out. -/
def mine_pending_transactions (sha256 : String → String)
    (bc : IndianBlockchain) (miner_address : String)
    (fuel nowTx nowBlock : Nat) : Option IndianBlockchain :=
  let bc1 := add_transaction bc "Network" miner_address (Amount.num 10) nowTx
  match bc1.chain.getLast? with
  | none => none
  | some tip =>
    (mine_block sha256 bc1.difficulty fuel
        (Block.init sha256 bc1.chain.length bc1.pending_transactions
          tip.hash nowBlock)).map
      (fun mined =>
        { bc1 with chain := bc1.chain ++ [mined], pending_transactions := [] })

/-- The three failure categories `is_chain_valid` can report (it prints a
distinct message for each before returning False). -/
inductive Failure where
  | hashMismatch
  | linkageMismatch
  | proofOfWorkMismatch
deriving DecidableEq

/-- The body of one iteration of the `is_chain_valid` loop: the three
checks in the code's order, `none` when all pass. -/
def checkBlock (sha256 : String → String) (difficulty : Nat)
    (previous_block current_block : Block) : Option Failure :=
  if current_block.hash ≠ calculate_hash sha256 current_block then
    some .hashMismatch
  else if current_block.previous_hash ≠ previous_block.hash then
    some .linkageMismatch
  else if current_block.hash.take difficulty ≠ zeroTarget difficulty then
    some .proofOfWorkMismatch
  else none

/-- The `for i in range(1, len(self.chain))` loop of `is_chain_valid`,
walking the remaining blocks with the previous block and the running index
at hand; an error carries the failing index and category (what the code
prints before returning False). -/
def validateFrom (sha256 : String → String) (difficulty : Nat) :
    Block → List Block → Nat → Except (Nat × Failure) Unit
  | _, [], _ => .ok ()
  | prev, cur :: rest, i =>
    match checkBlock sha256 difficulty prev cur with
    | some f => .error (i, f)
    | none => validateFrom sha256 difficulty cur rest (i + 1)

/-- `IndianBlockchain.is_chain_valid`, kept with its diagnostic: `ok` when
the loop finishes, `error (i, f)` when it returns False at index `i` for
reason `f`. -/
def is_chain_valid_result (sha256 : String → String)
    (bc : IndianBlockchain) : Except (Nat × Failure) Unit :=
  match bc.chain with
  | [] => .ok ()
  | g :: rest => validateFrom sha256 bc.difficulty g rest 1

/-- `IndianBlockchain.is_chain_valid`'s boolean return value. -/
def is_chain_valid (sha256 : String → String) (bc : IndianBlockchain) : Bool :=
  match is_chain_valid_result sha256 bc with
  | .ok _ => true
  | .error _ => false

/-- Direct field mutation of a stored block, as the demo does at line 164
of src/blockchain.py: the chain with the block at position `i` replaced. -/
def tamperBlock (bc : IndianBlockchain) (i : Nat) (b' : Block) :
    IndianBlockchain :=
  { bc with chain := bc.chain.set i b' }

/-- Placeholder block used only as the default of out-of-range list
lookups in statements (every statement bounds its indices). -/
def dummyBlock : Block := ⟨0, 0, [], "", 0, ""⟩

/-- The block at position `i` of the chain. -/
def blockAt (bc : IndianBlockchain) (i : Nat) : Block :=
  bc.chain.getD i dummyBlock

instance {e a : Type} [DecidableEq e] [DecidableEq a] : DecidableEq (Except e a)
  | .ok x, .ok y => if h : x = y then .isTrue (by rw [h]) else .isFalse (by simp [h])
  | .ok _, .error _ => .isFalse (by simp)
  | .error _, .ok _ => .isFalse (by simp)
  | .error x, .error y => if h : x = y then .isTrue (by rw [h]) else .isFalse (by simp [h])

instance : IsTotal (String × String) (fun p q => p.1 ≤ q.1) :=
  ⟨fun a b => le_total a.1 b.1⟩

instance : IsTrans (String × String) (fun p q => p.1 ≤ q.1) :=
  ⟨fun _ _ _ hab hbc => le_trans hab hbc⟩

/-- A concrete digest function for singular instances: every input maps to
the one-character digest "0", so any positive difficulty is met at once. -/
def shaW : String → String := fun _ => "0"

/-- A concrete digest function whose outputs never start with a zero. -/
def shaX : String → String := fun _ => "1"

/-- The genesis block of the concrete chain below, as `shaW` mines it. -/
def genesisW : Block := ⟨0, 0, [], zeroTarget 64, 0, "0"⟩

/-- A consistently hashed successor of `genesisW` under `shaW`. -/
def blockOneW : Block := ⟨1, 0, [], "0", 0, "0"⟩

/-- A concrete two-block chain at difficulty 1, valid under `shaW`. -/
def bcW : IndianBlockchain := ⟨[genesisW, blockOneW], 1, []⟩

/-- The one-block chain `IndianBlockchain.init shaW 1 0 0` produces. -/
def bcInitW : IndianBlockchain := ⟨[genesisW], 1, []⟩

/-- The chain `mine_pending_transactions shaW bcW "M" 0 5 6` produces. -/
def bcMinedW : IndianBlockchain :=
  ⟨[genesisW, blockOneW,
    ⟨2, 6, [⟨"Network", "M", Amount.num 10, 5⟩], "0", 0, "0"⟩], 1, []⟩

/-- A block whose stored hash "0" already meets difficulty 1 but disagrees
with its recomputed digest under `shaX` (which is "1"). -/
def staleBlockW : Block := ⟨0, 0, [], "", 0, "0"⟩

/-- `calculate_hash` never reads the stored `hash` field. -/
lemma calculate_hash_set_hash (sha256 : String → String) (b : Block) (s : String) :
    calculate_hash sha256 { b with hash := s } = calculate_hash sha256 b := rfl

/-- A block freshly built by `Block.__init__` stores a hash consistent with
its fields. -/
lemma Block.init_consistent (sha256 : String → String) (index : Nat)
    (transactions : List Transaction) (previous_hash : String) (now : Nat) :
    (Block.init sha256 index transactions previous_hash now).hash =
      calculate_hash sha256 (Block.init sha256 index transactions previous_hash now) := rfl

@[simp] lemma Block.init_index (sha256 : String → String) (index : Nat)
    (transactions : List Transaction) (previous_hash : String) (now : Nat) :
    (Block.init sha256 index transactions previous_hash now).index = index := rfl

@[simp] lemma Block.init_transactions (sha256 : String → String) (index : Nat)
    (transactions : List Transaction) (previous_hash : String) (now : Nat) :
    (Block.init sha256 index transactions previous_hash now).transactions = transactions := rfl

@[simp] lemma Block.init_previous_hash (sha256 : String → String) (index : Nat)
    (transactions : List Transaction) (previous_hash : String) (now : Nat) :
    (Block.init sha256 index transactions previous_hash now).previous_hash = previous_hash := rfl

@[simp] lemma Block.init_timestamp (sha256 : String → String) (index : Nat)
    (transactions : List Transaction) (previous_hash : String) (now : Nat) :
    (Block.init sha256 index transactions previous_hash now).timestamp = now := rfl

/-- What `mine_block` guarantees when the loop finishes: the returned
block meets the proof-of-work target, only its nonce and hash moved (the
nonce never decreases), and if the input block's stored hash was consistent
with its fields then so is the output's. -/
lemma mine_block_spec (sha256 : String → String) (d : Nat) :
    ∀ (fuel : Nat) (b b' : Block), mine_block sha256 d fuel b = some b' →
      b'.hash.take d = zeroTarget d ∧
      b'.index = b.index ∧ b'.timestamp = b.timestamp ∧
      b'.transactions = b.transactions ∧ b'.previous_hash = b.previous_hash ∧
      b.nonce ≤ b'.nonce ∧
      (b.hash = calculate_hash sha256 b → b'.hash = calculate_hash sha256 b')
  | 0, b, b', h => by
    by_cases hc : b.hash.take d = zeroTarget d
    · simp only [mine_block, if_pos hc, Option.some.injEq] at h
      subst h
      exact ⟨hc, rfl, rfl, rfl, rfl, le_refl _, fun hcons => hcons⟩
    · simp [mine_block, if_neg hc] at h
  | fuel + 1, b, b', h => by
    by_cases hc : b.hash.take d = zeroTarget d
    · simp only [mine_block, if_pos hc, Option.some.injEq] at h
      subst h
      exact ⟨hc, rfl, rfl, rfl, rfl, le_refl _, fun hcons => hcons⟩
    · simp only [mine_block, if_neg hc] at h
      have hrec := mine_block_spec sha256 d fuel _ b' h
      dsimp only at hrec
      obtain ⟨hpow, hidx, hts, htx, hprev, hnonce, hcons⟩ := hrec
      exact ⟨hpow, hidx, hts, htx, hprev, by omega, fun _ => hcons rfl⟩

/-- The three checks behind `checkBlock = none`, spelled out. -/
lemma checkBlock_eq_none_iff (sha256 : String → String) (d : Nat) (p c : Block) :
    checkBlock sha256 d p c = none ↔
      (c.hash = calculate_hash sha256 c ∧ c.previous_hash = p.hash ∧
       c.hash.take d = zeroTarget d) := by
  unfold checkBlock
  split_ifs with h1 h2 h3 <;> simp_all

/-- A block whose stored hash disagrees with its recomputed hash fails the
first check, whatever the previous block is. -/
lemma checkBlock_of_inconsistent (sha256 : String → String) (d : Nat) (p c : Block)
    (h : c.hash ≠ calculate_hash sha256 c) :
    checkBlock sha256 d p c = some .hashMismatch := by
  unfold checkBlock
  rw [if_pos h]

/-- `checkBlock` reads nothing of the previous block but its stored hash. -/
lemma checkBlock_congr_prev (sha256 : String → String) (d : Nat) (p p' c : Block)
    (h : p.hash = p'.hash) :
    checkBlock sha256 d p c = checkBlock sha256 d p' c := by
  unfold checkBlock
  rw [h]

/-- The validation loop succeeds exactly when every adjacent pair of blocks
passes the three checks. -/
lemma validateFrom_ok_iff (sha256 : String → String) (d : Nat) :
    ∀ (l : List Block) (prev : Block) (i : Nat),
      validateFrom sha256 d prev l i = .ok () ↔
        List.Chain (fun p c => checkBlock sha256 d p c = none) prev l
  | [], prev, i => by
    simp only [validateFrom]
    exact ⟨fun _ => List.Chain.nil, fun _ => trivial⟩
  | cur :: rest, prev, i => by
    cases hc : checkBlock sha256 d prev cur with
    | some f =>
      simp only [validateFrom, hc, List.chain_cons]
      constructor
      · intro h
        exact absurd h (by simp)
      · rintro ⟨h1, -⟩
        simp [hc] at h1
    | none =>
      simp only [validateFrom, hc, List.chain_cons]
      rw [validateFrom_ok_iff sha256 d rest cur (i + 1)]
      simp

/-- Adjacent-pair chains of checks, read through positional lookups. -/
lemma chain_iff_getD {R : Block → Block → Prop} :
    ∀ (l : List Block) (a : Block),
      List.Chain R a l ↔
        ∀ i, i < l.length → R ((a :: l).getD i dummyBlock) (l.getD i dummyBlock)
  | [], a => by
    constructor
    · intro _ i hi
      simp at hi
    · intro _
      exact List.Chain.nil
  | b :: l, a => by
    rw [List.chain_cons, chain_iff_getD l b]
    constructor
    · rintro ⟨hab, h⟩ i hi
      cases i with
      | zero => simpa using hab
      | succ j =>
        simp only [List.getD_cons_succ]
        exact h j (by simpa using hi)
    · intro h
      refine ⟨by simpa using h 0 (by simp), fun j hj => ?_⟩
      simpa using h (j + 1) (by simpa using hj)

/-- `is_chain_valid` returns True exactly when the loop result is `ok`. -/
lemma is_chain_valid_eq_true_iff_ok (sha256 : String → String) (bc : IndianBlockchain) :
    is_chain_valid sha256 bc = true ↔ is_chain_valid_result sha256 bc = .ok () := by
  unfold is_chain_valid
  cases h : is_chain_valid_result sha256 bc with
  | ok u => cases u; simp
  | error e => simp

/-- Positional reading of a successful validation: every index from 1 to
N-1 passes all three checks. -/
lemma is_chain_valid_true_iff (sha256 : String → String) (bc : IndianBlockchain) :
    is_chain_valid sha256 bc = true ↔
      ∀ i, 1 ≤ i → i < bc.chain.length →
        checkBlock sha256 bc.difficulty (blockAt bc (i - 1)) (blockAt bc i) = none := by
  rw [is_chain_valid_eq_true_iff_ok]
  unfold is_chain_valid_result blockAt
  cases hc : bc.chain with
  | nil =>
    simp
  | cons g rest =>
    rw [validateFrom_ok_iff, chain_iff_getD]
    constructor
    · intro h i h1 h2
      obtain ⟨k, rfl⟩ : ∃ k, i = k + 1 := ⟨i - 1, by omega⟩
      simpa using h k (by simp at h2; omega)
    · intro h k hk
      have := h (k + 1) (by omega) (by simp; omega)
      simpa using this

/-- Reading a failed validation positionally: the loop stopped at the
first failing pair, every earlier pair having passed. -/
lemma validateFrom_error_spec (sha256 : String → String) (d : Nat) :
    ∀ (l : List Block) (prev : Block) (i j : Nat) (f : Failure),
      validateFrom sha256 d prev l i = .error (j, f) →
      ∃ k, k < l.length ∧ j = i + k ∧
        checkBlock sha256 d ((prev :: l).getD k dummyBlock) (l.getD k dummyBlock) = some f ∧
        ∀ m, m < k →
          checkBlock sha256 d ((prev :: l).getD m dummyBlock) (l.getD m dummyBlock) = none
  | [], prev, i, j, f => by
    intro h
    simp [validateFrom] at h
  | cur :: rest, prev, i, j, f => by
    intro h
    cases hc : checkBlock sha256 d prev cur with
    | some f0 =>
      simp only [validateFrom, hc, Except.error.injEq, Prod.mk.injEq] at h
      obtain ⟨rfl, rfl⟩ := h
      exact ⟨0, by simp, by omega, by simpa using hc, fun m hm => absurd hm (by omega)⟩
    | none =>
      simp only [validateFrom, hc] at h
      obtain ⟨k, hk, rfl, hfail, hpass⟩ :=
        validateFrom_error_spec sha256 d rest cur (i + 1) _ f h
      refine ⟨k + 1, by simpa using hk, by omega, by simpa using hfail, fun m hm => ?_⟩
      cases m with
      | zero => simpa using hc
      | succ m0 => simpa using hpass m0 (by omega)

/-- The converse: if every pair before position `k` passes and the pair at
`k` fails with category `f`, the loop stops exactly there. -/
lemma validateFrom_error_of (sha256 : String → String) (d : Nat) :
    ∀ (l : List Block) (prev : Block) (i k : Nat) (f : Failure),
      k < l.length →
      (∀ m, m < k →
        checkBlock sha256 d ((prev :: l).getD m dummyBlock) (l.getD m dummyBlock) = none) →
      checkBlock sha256 d ((prev :: l).getD k dummyBlock) (l.getD k dummyBlock) = some f →
      validateFrom sha256 d prev l i = .error (i + k, f)
  | [], prev, i, k, f => by
    intro hk
    simp at hk
  | cur :: rest, prev, i, k, f => by
    intro hk hpass hfail
    cases k with
    | zero =>
      simp only [List.getD_cons_zero] at hfail
      simp [validateFrom, hfail]
    | succ k0 =>
      have h0 : checkBlock sha256 d prev cur = none := by
        simpa using hpass 0 (by omega)
      simp only [validateFrom, h0]
      have := validateFrom_error_of sha256 d rest cur (i + 1) k0 f
        (by simpa using hk)
        (fun m hm => by simpa using hpass (m + 1) (by omega))
        (by simpa using hfail)
      have harith : i + (k0 + 1) = i + 1 + k0 := by omega
      rw [harith]
      exact this

/-- A False verdict with its diagnostic: the reported index is in range,
non-genesis, fails with the reported category, and is the first failing
index. -/
lemma result_error_spec (sha256 : String → String) (bc : IndianBlockchain)
    (j : Nat) (f : Failure)
    (h : is_chain_valid_result sha256 bc = .error (j, f)) :
    1 ≤ j ∧ j < bc.chain.length ∧
      checkBlock sha256 bc.difficulty (blockAt bc (j - 1)) (blockAt bc j) = some f ∧
      ∀ m, 1 ≤ m → m < j →
        checkBlock sha256 bc.difficulty (blockAt bc (m - 1)) (blockAt bc m) = none := by
  unfold is_chain_valid_result at h
  cases hc : bc.chain with
  | nil =>
    rw [hc] at h
    exact absurd h (by simp)
  | cons g rest =>
    rw [hc] at h
    obtain ⟨k, hk, rfl, hfail, hpass⟩ := validateFrom_error_spec sha256 bc.difficulty rest g 1 _ f h
    unfold blockAt
    rw [hc]
    refine ⟨by omega, by simp; omega, ?_, ?_⟩
    · have h1 : 1 + k - 1 = k := by omega
      have h2 : 1 + k = k + 1 := by omega
      rw [h1, h2]
      simpa using hfail
    · intro m h1 h2
      obtain ⟨m0, rfl⟩ : ∃ m0, m = m0 + 1 := ⟨m - 1, by omega⟩
      simpa using hpass m0 (by omega)

/-- An `error` result is a False return value. -/
lemma is_chain_valid_eq_false_of_error (sha256 : String → String)
    (bc : IndianBlockchain) (e : Nat × Failure)
    (h : is_chain_valid_result sha256 bc = .error e) :
    is_chain_valid sha256 bc = false := by
  unfold is_chain_valid
  rw [h]

/-- Everything `mine_pending_transactions` guarantees when it returns:
difficulty kept, pool cleared, exactly one block appended, holding the old
pool plus the reward transaction, indexed by the old length, linked to the
old tip's stored hash, consistently hashed and meeting the target. -/
lemma mine_pending_spec (sha256 : String → String) (bc bc' : IndianBlockchain)
    (m : String) (fuel t1 t2 : Nat)
    (h : mine_pending_transactions sha256 bc m fuel t1 t2 = some bc') :
    bc'.difficulty = bc.difficulty ∧
    bc'.pending_transactions = [] ∧
    ∃ tip nb,
      bc.chain.getLast? = some tip ∧
      bc'.chain = bc.chain ++ [nb] ∧
      nb.transactions =
        bc.pending_transactions ++ [Transaction.init "Network" m (Amount.num 10) t1] ∧
      nb.index = bc.chain.length ∧
      nb.previous_hash = tip.hash ∧
      nb.timestamp = t2 ∧
      nb.hash = calculate_hash sha256 nb ∧
      nb.hash.take bc.difficulty = zeroTarget bc.difficulty := by
  unfold mine_pending_transactions add_transaction at h
  dsimp only at h
  cases hl : bc.chain.getLast? with
  | none =>
    rw [hl] at h
    exact absurd h (by simp)
  | some tip =>
    rw [hl] at h
    dsimp only at h
    cases hm : mine_block sha256 bc.difficulty fuel
        (Block.init sha256 bc.chain.length
          (bc.pending_transactions ++ [Transaction.init "Network" m (Amount.num 10) t1])
          tip.hash t2) with
    | none =>
      rw [hm] at h
      exact absurd h (by simp)
    | some mined =>
      rw [hm] at h
      simp only [Option.map_some', Option.some.injEq] at h
      obtain ⟨hpow, hidx, hts, htx, hprev, -, hcons⟩ :=
        mine_block_spec sha256 bc.difficulty fuel _ mined hm
      subst h
      refine ⟨rfl, rfl, tip, mined, rfl, rfl, ?_, ?_, ?_, ?_, ?_, hpow⟩
      · simpa using htx
      · simpa using hidx
      · simpa using hprev
      · simpa using hts
      · exact hcons (Block.init_consistent sha256 _ _ _ _)

/-- Appending one element to a chain of pairwise checks, when the new pair
(the old last element, the new one) also passes. -/
lemma chain_append_of {R : Block → Block → Prop} :
    ∀ (l : List Block) (a tip b : Block),
      List.Chain R a l → (a :: l).getLast? = some tip → R tip b →
      List.Chain R a (l ++ [b])
  | [], a, tip, b => by
    intro _ hlast hr
    simp only [List.getLast?_singleton, Option.some.injEq] at hlast
    subst hlast
    exact List.Chain.cons hr List.Chain.nil
  | c :: l, a, tip, b => by
    intro hchain hlast hr
    rw [List.chain_cons] at hchain
    refine List.Chain.cons hchain.1 ?_
    exact chain_append_of l c tip b hchain.2 (by simpa using hlast) hr

/-- `getD` after replacing the element at the looked-up position. -/
lemma getD_set_self (l : List Block) (i : Nat) (b : Block) (h : i < l.length) :
    (l.set i b).getD i dummyBlock = b := by
  simp [List.getElem?_set_self h]

/-- `getD` after replacing the element at another position. -/
lemma getD_set_ne (l : List Block) (i j : Nat) (b : Block) (h : i ≠ j) :
    (l.set i b).getD j dummyBlock = l.getD j dummyBlock := by
  simp [List.getElem?_set_ne h]

/-- The chains reachable from `IndianBlockchain.__init__` by any sequence
of `add_transaction` and `mine_pending_transactions` calls (no external
tampering). -/
inductive Reachable (sha256 : String → String) : IndianBlockchain → Prop
  | init (difficulty fuel now : Nat) (bc : IndianBlockchain) :
      IndianBlockchain.init sha256 difficulty fuel now = some bc →
      Reachable sha256 bc
  | add (bc : IndianBlockchain) (sender recipient : String) (amount : Amount) (now : Nat) :
      Reachable sha256 bc →
      Reachable sha256 (add_transaction bc sender recipient amount now)
  | mine (bc bc' : IndianBlockchain) (miner : String) (fuel t1 t2 : Nat) :
      Reachable sha256 bc →
      mine_pending_transactions sha256 bc miner fuel t1 t2 = some bc' →
      Reachable sha256 bc'

/-- The invariant every reachable chain carries: a genesis block whose
previous hash is the 64-zero sentinel, followed by blocks that all pass the
validator's three checks. -/
lemma reachable_good (sha256 : String → String) (bc : IndianBlockchain)
    (h : Reachable sha256 bc) :
    ∃ g rest, bc.chain = g :: rest ∧ g.previous_hash = zeroTarget 64 ∧
      List.Chain (fun p c => checkBlock sha256 bc.difficulty p c = none) g rest := by
  induction h with
  | init difficulty fuel now bc0 hinit =>
    unfold IndianBlockchain.init at hinit
    cases hm : mine_block sha256 difficulty fuel
        (Block.init sha256 0 [] (zeroTarget 64) now) with
    | none =>
      rw [hm] at hinit
      exact absurd hinit (by simp)
    | some g0 =>
      rw [hm] at hinit
      simp only [Option.map_some', Option.some.injEq] at hinit
      subst hinit
      obtain ⟨-, -, -, -, hprev, -, -⟩ := mine_block_spec sha256 difficulty fuel _ g0 hm
      exact ⟨g0, [], rfl, by simpa using hprev, List.Chain.nil⟩
  | add bc0 sender recipient amount now _ ih =>
    obtain ⟨g, rest, hc, hg, hchain⟩ := ih
    exact ⟨g, rest, hc, hg, hchain⟩
  | mine bc0 bc' miner fuel t1 t2 _ hmine ih =>
    obtain ⟨g, rest, hc, hg, hchain⟩ := ih
    obtain ⟨hdiff, -, tip, nb, hlast, hchain', -, -, hprev, -, hcons, hpow⟩ :=
      mine_pending_spec sha256 bc0 bc' miner fuel t1 t2 hmine
    refine ⟨g, rest ++ [nb], by rw [hchain', hc, List.cons_append], hg, ?_⟩
    rw [hdiff]
    refine chain_append_of rest g tip nb hchain ?_ ?_
    · rw [← hc]
      exact hlast
    · rw [checkBlock_eq_none_iff]
      exact ⟨hcons, hprev, hpow⟩

/-- A chain of passing checks makes the validator return True. -/
lemma is_chain_valid_of_chain (sha256 : String → String) (bc : IndianBlockchain)
    (g : Block) (rest : List Block) (hc : bc.chain = g :: rest)
    (h : List.Chain (fun p c => checkBlock sha256 bc.difficulty p c = none) g rest) :
    is_chain_valid sha256 bc = true := by
  rw [is_chain_valid_eq_true_iff_ok]
  unfold is_chain_valid_result
  rw [hc]
  exact (validateFrom_ok_iff sha256 bc.difficulty rest g 1).mpr h

/-- Two key-sorted association lists that are permutations of each other
and have no duplicate key are identical. -/
lemma sorted_perm_nodupkeys_eq :
    ∀ (l l' : List (String × String)), l.Perm l' →
      List.Sorted (fun p q => p.1 ≤ q.1) l →
      List.Sorted (fun p q => p.1 ≤ q.1) l' →
      (l.map Prod.fst).Nodup → l = l'
  | [], l', hperm, _, _, _ => (hperm.symm.eq_nil).symm
  | p :: t, [], hperm, _, _, _ => absurd hperm.eq_nil (by simp)
  | p :: t, p' :: t', hperm, hsort, hsort', hnodup => by
    rw [List.sorted_cons] at hsort hsort'
    have hpp : p = p' := by
      have hp : p ∈ p' :: t' := hperm.subset (by simp)
      have hp' : p' ∈ p :: t := hperm.symm.subset (by simp)
      rcases List.mem_cons.mp hp with heq | hpt'
      · exact heq
      rcases List.mem_cons.mp hp' with heq | hp't
      · exact heq.symm
      have hkey : p.1 = p'.1 :=
        le_antisymm (hsort.1 p' hp't) (hsort'.1 p hpt')
      have : p.1 ∈ t.map Prod.fst := by
        rw [hkey]
        exact List.mem_map_of_mem Prod.fst hp't
      simp only [List.map_cons, List.nodup_cons] at hnodup
      exact absurd this hnodup.1
    subst hpp
    have := sorted_perm_nodupkeys_eq t t' (hperm.cons_inv) hsort.2 hsort'.2
      (by simp only [List.map_cons, List.nodup_cons] at hnodup; exact hnodup.2)
    rw [this]

/-- Because `dumpsObj` sorts keys before serializing, the insertion order
of a duplicate-free association list never affects its dump. -/
lemma dumpsObj_perm (l l' : List (String × String)) (hperm : l.Perm l')
    (hnodup : (l.map Prod.fst).Nodup) : dumpsObj l = dumpsObj l' := by
  unfold dumpsObj
  suffices hs : sortByKey l = sortByKey l' by rw [hs]
  unfold sortByKey
  apply sorted_perm_nodupkeys_eq
  · exact (List.perm_insertionSort _ l).trans (hperm.trans (List.perm_insertionSort _ l').symm)
  · exact List.sorted_insertionSort _ l
  · exact List.sorted_insertionSort _ l'
  · exact (((List.perm_insertionSort _ l).map Prod.fst).nodup_iff).mpr hnodup

/-- `calculate_hash` is a function of exactly the five content fields. -/
lemma calculate_hash_congr (sha256 : String → String) (b1 b2 : Block)
    (h1 : b1.index = b2.index) (h2 : b1.timestamp = b2.timestamp)
    (h3 : b1.transactions = b2.transactions)
    (h4 : b1.previous_hash = b2.previous_hash) (h5 : b1.nonce = b2.nonce) :
    calculate_hash sha256 b1 = calculate_hash sha256 b2 := by
  unfold calculate_hash blockContent
  rw [h1, h2, h3, h4, h5]

/-- The loop never looks at the previous block beyond its stored hash, so
a prefix block may be swapped for one with the same stored hash. -/
lemma validateFrom_congr_prev (sha256 : String → String) (d : Nat)
    (l : List Block) (p p' : Block) (i : Nat) (h : p.hash = p'.hash) :
    validateFrom sha256 d p l i = validateFrom sha256 d p' l i := by
  cases l with
  | nil => rfl
  | cons c rest =>
    simp only [validateFrom, checkBlock_congr_prev sha256 d p p' c h]

/-- C1: `is_chain_valid` walks indices 1..N-1 and returns True exactly when
every such block's stored hash equals its freshly recomputed hash, its
stored previous_hash equals the preceding block's stored hash, and its
stored hash starts with `difficulty` zeros; when it returns False it stops
at the first failing index, every earlier index having passed. -/
theorem c1_is_chain_valid_characterization (sha256 : String → String)
    (bc : IndianBlockchain) :
    (is_chain_valid sha256 bc = true ↔
      ∀ i, 1 ≤ i → i < bc.chain.length →
        (blockAt bc i).hash = calculate_hash sha256 (blockAt bc i) ∧
        (blockAt bc i).previous_hash = (blockAt bc (i - 1)).hash ∧
        (blockAt bc i).hash.take bc.difficulty = zeroTarget bc.difficulty) ∧
    (∀ j f, is_chain_valid_result sha256 bc = .error (j, f) →
      is_chain_valid sha256 bc = false ∧
      1 ≤ j ∧ j < bc.chain.length ∧
      checkBlock sha256 bc.difficulty (blockAt bc (j - 1)) (blockAt bc j) = some f ∧
      ∀ m, 1 ≤ m → m < j →
        checkBlock sha256 bc.difficulty (blockAt bc (m - 1)) (blockAt bc m) = none) := by
  constructor
  · rw [is_chain_valid_true_iff]
    exact forall_congr' fun i => forall_congr' fun _ => forall_congr' fun _ =>
      checkBlock_eq_none_iff sha256 bc.difficulty _ _
  · intro j f h
    exact ⟨is_chain_valid_eq_false_of_error sha256 bc (j, f) h,
      result_error_spec sha256 bc j f h⟩

/-- C2: replacing a stored non-genesis block of a valid chain by a block
whose stored hash disagrees with its recomputed hash — the effect of
mutating any single field of it, absent a SHA-256 collision — makes
`is_chain_valid` return False, the first violation being the hash mismatch
at the mutated index. -/
theorem c2_tamper_detection (sha256 : String → String) (bc : IndianBlockchain)
    (i : Nat) (b' : Block)
    (hvalid : is_chain_valid sha256 bc = true)
    (h1 : 1 ≤ i) (h2 : i < bc.chain.length)
    (htamper : b'.hash ≠ calculate_hash sha256 b') :
    is_chain_valid_result sha256 (tamperBlock bc i b') =
      .error (i, .hashMismatch) ∧
    is_chain_valid sha256 (tamperBlock bc i b') = false := by
  cases hc : bc.chain with
  | nil =>
    rw [hc] at h2
    exact absurd h2 (by simp)
  | cons g rest =>
    obtain ⟨k, rfl⟩ : ∃ k, i = k + 1 := ⟨i - 1, by omega⟩
    rw [hc] at h2
    simp only [List.length_cons] at h2
    have hk : k < rest.length := by omega
    have hTchain : (tamperBlock bc (k + 1) b').chain = g :: rest.set k b' := by
      show bc.chain.set (k + 1) b' = _
      rw [hc, List.set_cons_succ]
    have hres : is_chain_valid_result sha256 (tamperBlock bc (k + 1) b') =
        validateFrom sha256 bc.difficulty g (rest.set k b') 1 := by
      unfold is_chain_valid_result
      rw [hTchain]
      rfl
    have hpassed := (is_chain_valid_true_iff sha256 bc).mp hvalid
    have herr : validateFrom sha256 bc.difficulty g (rest.set k b') 1 =
        .error (1 + k, .hashMismatch) := by
      apply validateFrom_error_of
      · simpa using hk
      · intro m hm
        have hm1 : (rest.set k b').getD m dummyBlock = rest.getD m dummyBlock :=
          getD_set_ne rest k m b' (by omega)
        have hm2 : (g :: rest.set k b').getD m dummyBlock =
            (g :: rest).getD m dummyBlock := by
          cases m with
          | zero => rfl
          | succ m0 =>
            simp only [List.getD_cons_succ]
            exact getD_set_ne rest k m0 b' (by omega)
        rw [hm1, hm2]
        have := hpassed (m + 1) (by omega) (by rw [hc]; simp; omega)
        unfold blockAt at this
        rw [hc] at this
        simpa using this
      · rw [getD_set_self rest k b' hk]
        exact checkBlock_of_inconsistent sha256 bc.difficulty _ b' htamper
    have harith : 1 + k = k + 1 := by omega
    rw [harith] at herr
    rw [hres, herr]
    exact ⟨rfl, is_chain_valid_eq_false_of_error sha256 _ _ (by rw [hres, herr])⟩

theorem c2_witness :
    is_chain_valid shaW (tamperBlock bcW 1 { blockOneW with hash := "1" }) = false :=
  (c2_tamper_detection shaW bcW 1 { blockOneW with hash := "1" }
    (by decide) (by decide) (by decide) (by decide)).2

/-- C3: when `mine_pending_transactions(m)` returns, the pool is empty,
exactly one block was appended, its transactions are the pre-call pool
followed by the one reward transaction to `m`, its index is the pre-call
chain length, and its previous_hash is the pre-call tip's hash. -/
theorem c3_mine_pending_postconditions (sha256 : String → String)
    (bc bc' : IndianBlockchain) (m : String) (fuel t1 t2 : Nat)
    (h : mine_pending_transactions sha256 bc m fuel t1 t2 = some bc') :
    bc'.pending_transactions = [] ∧
    ∃ nb, bc'.chain = bc.chain ++ [nb] ∧
      nb.transactions =
        bc.pending_transactions ++ [Transaction.init "Network" m (Amount.num 10) t1] ∧
      nb.index = bc.chain.length ∧
      ∀ tip, bc.chain.getLast? = some tip → nb.previous_hash = tip.hash := by
  obtain ⟨-, hpend, tip, nb, hlast, hchain, htx, hidx, hprev, -, -, -⟩ :=
    mine_pending_spec sha256 bc bc' m fuel t1 t2 h
  refine ⟨hpend, nb, hchain, htx, hidx, fun tip' htip => ?_⟩
  rw [hlast, Option.some.injEq] at htip
  rw [← htip]
  exact hprev

theorem c3_witness :
    bcMinedW.pending_transactions = [] ∧
    ∃ nb, bcMinedW.chain = bcW.chain ++ [nb] ∧
      nb.transactions =
        bcW.pending_transactions ++ [Transaction.init "Network" "M" (Amount.num 10) 5] ∧
      nb.index = bcW.chain.length ∧
      ∀ tip, bcW.chain.getLast? = some tip → nb.previous_hash = tip.hash :=
  c3_mine_pending_postconditions shaW bcW bcMinedW "M" 0 5 6 (by decide)

/-- C4 counterexample: `mine_block` checks its loop condition before any
recomputation, so on a block whose stored (stale) hash already meets the
target it terminates at once and returns without ever recomputing: the
claim's "stored hash equals recomputed hash on return" fails for it. -/
theorem c4_counterexample :
    mine_block shaX 1 5 staleBlockW = some staleBlockW ∧
    staleBlockW.hash ≠ calculate_hash shaX staleBlockW := by
  constructor
  · decide
  · decide

/-- C4 amended: for a block whose stored hash is consistent with its
fields on entry (as `Block.__init__` guarantees), if `mine_block(d)`
terminates then the final stored hash starts with d zeros and equals the
hash recomputed from the final fields; the search only ever increments the
nonce, touching no other content field. -/
theorem c4_mine_block_spec_amended (sha256 : String → String) (d fuel : Nat)
    (b b' : Block)
    (hconsistent : b.hash = calculate_hash sha256 b)
    (h : mine_block sha256 d fuel b = some b') :
    b'.hash.take d = zeroTarget d ∧
    b'.hash = calculate_hash sha256 b' ∧
    b'.index = b.index ∧ b'.timestamp = b.timestamp ∧
    b'.transactions = b.transactions ∧ b'.previous_hash = b.previous_hash ∧
    b.nonce ≤ b'.nonce := by
  obtain ⟨hpow, hidx, hts, htx, hprev, hn, hcons⟩ :=
    mine_block_spec sha256 d fuel b b' h
  exact ⟨hpow, hcons hconsistent, hidx, hts, htx, hprev, hn⟩

theorem c4_witness : genesisW.hash.take 1 = zeroTarget 1 :=
  (c4_mine_block_spec_amended shaW 1 0 genesisW genesisW (by decide) (by decide)).1

/-- C5 counterexample: `Transaction.__init__` has no validation at all, so
constructing a transaction with a NaN amount succeeds and
`add_transaction` appends it, where the claim says construction fails with
InvalidAmount (the spec-worded contract `Transaction.initSpec` does
reject it). -/
theorem c5_counterexample :
    (add_transaction bcW "Asha" "Bela" Amount.nan 7).pending_transactions =
      bcW.pending_transactions ++ [Transaction.init "Asha" "Bela" Amount.nan 7] ∧
    (Amount.nan).isFinite = false ∧
    Transaction.initSpec "Asha" "Bela" Amount.nan 7 = .error "InvalidAmount" :=
  ⟨rfl, rfl, rfl⟩

/-- C5 amended: constructing a Transaction always succeeds, for any amount
whatsoever (finite or not), storing the amount and stamping the supplied
current time; consequently `add_transaction` never fails and always
appends the new transaction to the pending pool. -/
theorem c5_add_transaction_total (bc : IndianBlockchain)
    (sender recipient : String) (amount : Amount) (now : Nat) :
    (add_transaction bc sender recipient amount now).pending_transactions =
      bc.pending_transactions ++ [Transaction.init sender recipient amount now] ∧
    (add_transaction bc sender recipient amount now).chain = bc.chain ∧
    (Transaction.init sender recipient amount now).timestamp = now ∧
    (Transaction.init sender recipient amount now).amount = amount :=
  ⟨rfl, rfl, rfl, rfl⟩

/-- C6: every chain reachable by any sequence of `add_transaction` and
`mine_pending_transactions` calls from construction keeps the linkage
invariant — genesis's previous_hash is the 64-zero sentinel and each later
block's previous_hash equals its predecessor's stored hash — and
`is_chain_valid` returns True on it. -/
theorem c6_reachable_invariants (sha256 : String → String)
    (bc : IndianBlockchain) (h : Reachable sha256 bc) :
    (blockAt bc 0).previous_hash = zeroTarget 64 ∧
    (∀ i, 1 ≤ i → i < bc.chain.length →
      (blockAt bc i).previous_hash = (blockAt bc (i - 1)).hash) ∧
    is_chain_valid sha256 bc = true := by
  obtain ⟨g, rest, hc, hg, hchain⟩ := reachable_good sha256 bc h
  have hvalid := is_chain_valid_of_chain sha256 bc g rest hc hchain
  refine ⟨?_, ?_, hvalid⟩
  · unfold blockAt
    rw [hc]
    simpa using hg
  · intro i hi1 hi2
    have := (is_chain_valid_true_iff sha256 bc).mp hvalid i hi1 hi2
    exact ((checkBlock_eq_none_iff sha256 bc.difficulty _ _).mp this).2.1

theorem c6_witness : is_chain_valid shaW bcInitW = true :=
  (c6_reachable_invariants shaW bcInitW
    (Reachable.init 1 0 0 bcInitW (by decide))).2.2

/-- C7: a freshly constructed chain holds exactly the genesis block, at
index 0, with no transactions, the 64-zero sentinel previous hash, and a
stored hash meeting the configured difficulty. -/
theorem c7_genesis_properties (sha256 : String → String) (d fuel now : Nat)
    (bc : IndianBlockchain)
    (h : IndianBlockchain.init sha256 d fuel now = some bc) :
    bc.chain.length = 1 ∧ bc.difficulty = d ∧
    (blockAt bc 0).index = 0 ∧
    (blockAt bc 0).transactions = [] ∧
    (blockAt bc 0).previous_hash = zeroTarget 64 ∧
    (blockAt bc 0).hash.take d = zeroTarget d := by
  unfold IndianBlockchain.init at h
  cases hm : mine_block sha256 d fuel (Block.init sha256 0 [] (zeroTarget 64) now) with
  | none =>
    rw [hm] at h
    exact absurd h (by simp)
  | some g =>
    rw [hm] at h
    simp only [Option.map_some', Option.some.injEq] at h
    subst h
    obtain ⟨hpow, hidx, -, htx, hprev, -, -⟩ := mine_block_spec sha256 d fuel _ g hm
    refine ⟨rfl, rfl, ?_, ?_, ?_, hpow⟩
    · show g.index = 0
      simpa using hidx
    · show g.transactions = []
      simpa using htx
    · show g.previous_hash = zeroTarget 64
      simpa using hprev

theorem c7_witness : bcInitW.chain.length = 1 :=
  (c7_genesis_properties shaW 1 0 0 bcInitW (by decide)).1

/-- C8: `calculate_hash` is a function of exactly the five content fields
(index, timestamp, transactions, previous_hash, nonce) — two blocks
agreeing on them get the identical digest — and the serialization sorts
object keys, so any insertion order of a duplicate-free association list
dumps to the same string and hence the same digest. -/
theorem c8_calculate_hash_deterministic (sha256 : String → String)
    (b1 b2 : Block) (l l' : List (String × String)) :
    ((b1.index = b2.index ∧ b1.timestamp = b2.timestamp ∧
      b1.transactions = b2.transactions ∧ b1.previous_hash = b2.previous_hash ∧
      b1.nonce = b2.nonce) →
      calculate_hash sha256 b1 = calculate_hash sha256 b2) ∧
    (l.Perm l' → (l.map Prod.fst).Nodup →
      dumpsObj l = dumpsObj l' ∧ sha256 (dumpsObj l) = sha256 (dumpsObj l')) := by
  constructor
  · rintro ⟨h1, h2, h3, h4, h5⟩
    exact calculate_hash_congr sha256 b1 b2 h1 h2 h3 h4 h5
  · intro hperm hnodup
    have := dumpsObj_perm l l' hperm hnodup
    exact ⟨this, by rw [this]⟩

/-- C9: the validator never recomputes the genesis block's own hash: a
chain of length 0 or 1 is always declared valid, and replacing genesis by
a block with the same stored hash (mutating any of its content fields but
not the stored hash) never changes the validator's verdict. -/
theorem c9_genesis_unchecked (sha256 : String → String)
    (bc : IndianBlockchain) (g' : Block) :
    (bc.chain.length ≤ 1 → is_chain_valid sha256 bc = true) ∧
    (0 < bc.chain.length → g'.hash = (blockAt bc 0).hash →
      is_chain_valid_result sha256 (tamperBlock bc 0 g') =
        is_chain_valid_result sha256 bc ∧
      is_chain_valid sha256 (tamperBlock bc 0 g') = is_chain_valid sha256 bc) := by
  constructor
  · intro hlen
    cases hc : bc.chain with
    | nil =>
      rw [is_chain_valid_eq_true_iff_ok]
      unfold is_chain_valid_result
      rw [hc]
    | cons g rest =>
      cases rest with
      | nil =>
        rw [is_chain_valid_eq_true_iff_ok]
        unfold is_chain_valid_result
        rw [hc]
        rfl
      | cons b rest0 =>
        rw [hc] at hlen
        simp at hlen
  · intro hlen hsame
    cases hc : bc.chain with
    | nil =>
      rw [hc] at hlen
      exact absurd hlen (by simp)
    | cons g rest =>
      have hg : blockAt bc 0 = g := by
        unfold blockAt
        rw [hc]
        rfl
      rw [hg] at hsame
      have hTchain : (tamperBlock bc 0 g').chain = g' :: rest := by
        show bc.chain.set 0 g' = _
        rw [hc, List.set_cons_zero]
      have hres : is_chain_valid_result sha256 (tamperBlock bc 0 g') =
          validateFrom sha256 bc.difficulty g' rest 1 := by
        unfold is_chain_valid_result
        rw [hTchain]
        rfl
      have hres0 : is_chain_valid_result sha256 bc =
          validateFrom sha256 bc.difficulty g rest 1 := by
        unfold is_chain_valid_result
        rw [hc]
      have heq : is_chain_valid_result sha256 (tamperBlock bc 0 g') =
          is_chain_valid_result sha256 bc := by
        rw [hres, hres0]
        exact validateFrom_congr_prev sha256 bc.difficulty rest g' g 1 hsame
      refine ⟨heq, ?_⟩
      unfold is_chain_valid
      rw [heq]

/-- C10: `mine_pending_transactions` works on an empty pool too, the new
block then holding exactly the reward transaction, whose hardcoded
constants are sender "Network" and amount 10.0; and a chain constructed
without a difficulty argument gets the default difficulty 4. -/
theorem c10_empty_pool_and_defaults (sha256 : String → String)
    (bc bc' : IndianBlockchain) (m : String) (fuel t1 t2 now : Nat) :
    (bc.pending_transactions = [] →
      mine_pending_transactions sha256 bc m fuel t1 t2 = some bc' →
      ∃ nb, bc'.chain = bc.chain ++ [nb] ∧
        nb.transactions = [Transaction.init "Network" m (Amount.num 10) t1]) ∧
    defaultDifficulty = 4 ∧
    IndianBlockchain.initDefault sha256 fuel now =
      IndianBlockchain.init sha256 4 fuel now := by
  refine ⟨?_, rfl, rfl⟩
  intro hempty h
  obtain ⟨-, -, tip, nb, -, hchain, htx, -, -, -, -, -⟩ :=
    mine_pending_spec sha256 bc bc' m fuel t1 t2 h
  refine ⟨nb, hchain, ?_⟩
  rw [htx, hempty]
  simp

end Blockchain
